import Mathlib

/-!
Verification of the VantaMorph morphing engine specification against the
repository's code.  The web-worker bootstrap (`src/worker.js`) is embedded
directly; the core engine components (grid sampling, cost matrix, assignment
solver, particle physics, jump-flooding renderer) are shipped only as a Rust
binary described by the specification and `src/README.md`, so they are
modelled from the spec's formulas and contracts.
-/

namespace VantaMorph

open scoped List

/-! ## Worker bootstrap (`src/worker.js`) -/

/-- Embeds `const scriptName = params.get("script") || "./vantamorph.js"`.
`URLSearchParams.get` yields `null` (here `none`) when the parameter is
absent; JavaScript `||` falls through to the default when the left operand
is falsy, which for strings means `null` or the empty string. -/
def scriptName (q : Option String) : String :=
  match q with
  | none => "./vantamorph.js"
  | some s => if s = "" then "./vantamorph.js" else s

/-- Embeds JavaScript `String.prototype.replace` with a string pattern:
the first (leftmost) occurrence of `pat` is replaced by `rep`; when `pat`
does not occur the string is returned unchanged. -/
def replaceFirstAux (pat rep : List Char) : List Char → List Char
  | [] => []
  | c :: cs =>
    if pat.isPrefixOf (c :: cs) then rep ++ (c :: cs).drop pat.length
    else c :: replaceFirstAux pat rep cs

/-- String wrapper for `replaceFirstAux`. -/
def jsReplace (s pat rep : String) : String :=
  ⟨replaceFirstAux pat.data rep.data s.data⟩

/-- Embeds `const wasmName = scriptName.replace(".js", "_bg.wasm")`. -/
def wasmName (s : String) : String :=
  jsReplace s ".js" "_bg.wasm"

/-- Embeds the worker's top-level `try { ... } catch (e) { console.error(...); throw e }`:
the dynamic import of the app module followed by wasm initialization, where a
failure of either is logged via `console.error` and then rethrown.  The import
and the wasm initializer are the external effects, passed in as functions; the
result pairs the worker's outcome with the log of `console.error` messages. -/
def workerBoot (q : Option String) (importFn : String → Except String Unit)
    (initFn : String → Except String Unit) :
    Except String Unit × List String :=
  let sN := scriptName q
  let body : Except String Unit :=
    match importFn sN with
    | .error e => .error e
    | .ok _ => initFn (wasmName sN)
  match body with
  | .error e => (.error e, ["worker failed to initialize: " ++ e])
  | .ok u => (.ok u, [])

/-! ## Cells and the cost matrix (spec §4.1, README "Cost Function") -/

/-- Modelled from the spec: a `Cell` is one grid partition reduced to an
average color and centroid position (the Rust sampler is not in the repo).
Coordinates and channels are rationals standing for the spec's `f32`s. -/
structure Cell where
  px : ℚ
  py : ℚ
  cr : ℚ
  cg : ℚ
  cb : ℚ
deriving DecidableEq

instance : Inhabited Cell := ⟨⟨0, 0, 0, 0, 0⟩⟩

/-- Modelled from the spec: `d_color(i,j)²`, the squared Euclidean RGB
distance between two cells' colors. -/
def dColorSq (a b : Cell) : ℚ :=
  (a.cr - b.cr) ^ 2 + (a.cg - b.cg) ^ 2 + (a.cb - b.cb) ^ 2

/-- Modelled from the spec: `d_spatial(i,j)²`, the squared Euclidean
distance between two cells' centroids. -/
def dSpatialSq (a b : Cell) : ℚ :=
  (a.px - b.px) ^ 2 + (a.py - b.py) ^ 2

/-- Modelled from the spec: the spatial weight derived from the single
`proximity_importance ∈ [0,1]` configuration value (higher values increase
`w_spatial` relative to `w_color`). -/
def wSpatial (p : ℚ) : ℚ := p

/-- Modelled from the spec: the color weight complementary to `wSpatial`. -/
def wColor (p : ℚ) : ℚ := 1 - p

/-- Modelled from the spec:
`c(i,j) = w_color * d_color(i,j)² + w_spatial * d_spatial(i,j)²`. -/
def cost (p : ℚ) (a b : Cell) : ℚ :=
  wColor p * dColorSq a b + wSpatial p * dSpatialSq a b

/-- Modelled from the spec: the Cost Matrix Builder, producing the N×N
matrix of pairwise costs between the source and target cell grids. -/
def costMatrix (src tgt : List Cell) (p : ℚ) : List (List ℚ) :=
  src.map (fun a => tgt.map (fun b => cost p a b))

/-- Entry lookup in a cost matrix, with `0` out of range. -/
def entry (c : List (List ℚ)) (i j : ℕ) : ℚ :=
  (c.getD i []).getD j 0

/-- A concrete 2×2 sample grid (R = 2): four cells with distinct centroids
and distinct colors, for the identical-grids instance of the spec. -/
def grid2 : List Cell :=
  [⟨0, 0, 0, 0, 0⟩, ⟨1, 0, 1, 0, 0⟩, ⟨0, 1, 0, 1, 0⟩, ⟨1, 1, 0, 0, 1⟩]

/-! ## Assignment solver (spec §4.2) -/

/-- Modelled from the spec: the total cost `Σ c(i, π(i))` of an assignment
`π`, the fitness the solver minimizes. -/
def totalCost (c : List (List ℚ)) (pi : List ℕ) : ℚ :=
  ((List.range pi.length).map (fun i => entry c i (pi.getD i 0))).sum

/-- Fold selecting the argument of minimal fitness among a default and a
candidate list; earlier candidates win ties. -/
def selectMin (f : List ℕ → ℚ) (d : List ℕ) (l : List (List ℕ)) : List ℕ :=
  l.foldl (fun best cand => if f cand < f best then cand else best) d

/-- Modelled from the spec: Exact mode of the Assignment Solver.  The Rust
Kuhn-Munkres implementation is not in the repository; the spec pins exact
mode's output to the minimum-total-cost assignment (matching brute force),
so it is modelled as minimization over the full list of permutations of
`0..n-1`, the identity being the starting candidate. -/
def exactSolve (c : List (List ℚ)) (n : ℕ) : List ℕ :=
  selectMin (totalCost c) (List.range n) (List.range n).permutations'

/-- Modelled from the spec: the seeded pseudorandom generator threaded
through the genetic solver (a linear congruential step). -/
def lcg (s : ℕ) : ℕ := (s * 1103515245 + 12345) % 4294967296

/-- Modelled from the spec: a random permutation of `0..n-1` drawn from the
seeded PRNG, used for the genetic solver's initial population. -/
def randPerm (n s : ℕ) : List ℕ :=
  (List.range n).permutations'.getD (s % (List.range n).permutations'.length)
    (List.range n)

/-- Modelled from the spec: the genetic solver's initial population of
random permutations. -/
def initPop (n : ℕ) : ℕ → ℕ → List (List ℕ)
  | _, 0 => []
  | s, m + 1 => randPerm n s :: initPop n (lcg s) m

/-- Random draw of one individual from the population (default `d` when the
population is empty). -/
def draw (pop : List (List ℕ)) (d : List ℕ) (s : ℕ) : List ℕ :=
  pop.getD (s % pop.length) d

/-- Randomly drawn subset of the population for one tournament. -/
def drawMany (pop : List (List ℕ)) (d : List ℕ) : ℕ → ℕ → ℕ × List (List ℕ)
  | s, 0 => (s, [])
  | s, k + 1 =>
    let c := draw pop d s
    let r := drawMany pop d (lcg s) k
    (r.1, c :: r.2)

/-- Modelled from the spec: tournament selection — the fittest of a randomly
drawn subset of the population. -/
def tournament (f : List ℕ → ℚ) (pop : List (List ℕ)) (d : List ℕ)
    (s k : ℕ) : ℕ × List ℕ :=
  let r := drawMany pop d s k
  (lcg r.1, selectMin f d r.2)

/-- Modelled from the spec: order-preserving crossover — the child keeps the
first parent's prefix up to the cut point and appends the second parent's
remaining entries in their original order, so offspring of permutations stay
permutations. -/
def crossover (p1 p2 : List ℕ) (cut : ℕ) : List ℕ :=
  let t := p1.take cut
  t ++ p2.filter (fun x => decide (x ∉ t))

/-- Swap of the entries at two positions of a list (unchanged when either
index is out of range). -/
def swapIdx (l : List ℕ) (i j : ℕ) : List ℕ :=
  if i < l.length ∧ j < l.length then
    (l.set i (l.getD j 0)).set j (l.getD i 0)
  else l

/-- Modelled from the spec: mutation — with probability `rate`% the
individual has two randomly chosen positions swapped. -/
def mutate (s rate : ℕ) (l : List ℕ) : ℕ × List ℕ :=
  let r := lcg s
  if r % 100 < rate then
    let i := lcg r
    let j := lcg i
    (lcg j, swapIdx l (i % l.length) (j % l.length))
  else (r, l)

/-- One offspring: two tournament-selected parents, crossover at a random
cut, then possible mutation. -/
def mkChild (f : List ℕ → ℚ) (pop : List (List ℕ)) (d : List ℕ)
    (tSize mutRate n s : ℕ) : ℕ × List ℕ :=
  let r1 := tournament f pop d s tSize
  let r2 := tournament f pop d r1.1 tSize
  let cut := lcg r2.1 % (n + 1)
  mutate (lcg (lcg r2.1)) mutRate (crossover r1.2 r2.2 cut)

/-- The offspring part of the next generation. -/
def mkChildren (f : List ℕ → ℚ) (pop : List (List ℕ)) (d : List ℕ)
    (tSize mutRate n : ℕ) : ℕ → ℕ → ℕ × List (List ℕ)
  | _, 0 => ((0 : ℕ), ([] : List (List ℕ)))
  | s, m + 1 =>
    let r := mkChild f pop d tSize mutRate n s
    let rest := mkChildren f pop d tSize mutRate n r.1 m
    (rest.1, r.2 :: rest.2)

/-- Modelled from the spec: elitism — the top-`k` individuals by fitness,
extracted champion-first. -/
def topK (f : List ℕ → ℚ) : ℕ → List (List ℕ) → List (List ℕ)
  | 0, _ => []
  | _ + 1, [] => []
  | k + 1, x :: xs =>
    let b := selectMin f x xs
    b :: topK f k ((x :: xs).erase b)

/-- Configuration of the genetic solver (spec §6 `genetic_params` plus the
solver-internal elitism/tournament parameters). -/
structure GAConfig where
  populationSize : ℕ
  generations : ℕ
  eliteCount : ℕ
  tournamentSize : ℕ
  mutationRate : ℕ

/-- Modelled from the spec: one generation — the top-k elites carried
unchanged, the rest of the population replaced by offspring. -/
def gaStep (c : List (List ℚ)) (n : ℕ) (cfg : GAConfig) (s : ℕ)
    (pop : List (List ℕ)) : ℕ × List (List ℕ) :=
  let f := totalCost c
  let elites := topK f cfg.eliteCount pop
  let r := mkChildren f pop (List.range n) cfg.tournamentSize cfg.mutationRate n
    s (pop.length - cfg.eliteCount)
  (r.1, elites ++ r.2)

/-- PRNG state and population after `g` generations. -/
def genAt (c : List (List ℚ)) (n : ℕ) (cfg : GAConfig) (s : ℕ)
    (pop : List (List ℕ)) : ℕ → ℕ × List (List ℕ)
  | 0 => (s, pop)
  | g + 1 =>
    let r := genAt c n cfg s pop g
    gaStep c n cfg r.1 r.2

/-- Fitness of the fittest individual of a population (head-based, for
nonempty populations). -/
def bestFitness (c : List (List ℚ)) (pop : List (List ℕ)) : ℚ :=
  totalCost c (selectMin (totalCost c) pop.headI pop.tail)

/-- Modelled from the spec: Genetic mode of the Assignment Solver — random
initial population, a fixed generation budget of elitism + tournament +
crossover + mutation steps, output the fittest individual found (with the
identity as the degenerate fallback for an empty configured population). -/
def geneticSolve (c : List (List ℚ)) (n : ℕ) (cfg : GAConfig) (seed : ℕ) :
    List ℕ :=
  let pop := initPop n seed cfg.populationSize
  let final := genAt c n cfg (lcg seed) pop cfg.generations
  selectMin (totalCost c) (List.range n) final.2

/-! ## Particle physics: velocity update (spec §4.3, README "Velocity Update") -/

/-- A two-dimensional vector with rational components (standing for `f32`s). -/
structure Vec2 where
  x : ℚ
  y : ℚ
deriving DecidableEq

/-- Clamp of a value to the interval `[lo, hi]`. -/
def clampQ (lo hi v : ℚ) : ℚ := max lo (min hi v)

/-- Modelled from the spec: the per-frame velocity update with damping,
`v' = 0.97 * v + (F_dst + F_neighbor)`, each component then clamped to
`[-v_max, v_max]`.  The frame's net force `F_dst + F_neighbor` enters as the
input `a`; the claim holds for every value of the two forces, so their own
formulas (which involve square roots) are not needed here. -/
def velUpdate (vmax : ℚ) (v a : Vec2) : Vec2 :=
  ⟨clampQ (-vmax) vmax (97 / 100 * v.x + a.x),
   clampQ (-vmax) vmax (97 / 100 * v.y + a.y)⟩

/-- Velocity after a sequence of frames with the given per-frame net forces. -/
def runFrames (vmax : ℚ) (v : Vec2) : List Vec2 → Vec2
  | [] => v
  | a :: rest => runFrames vmax (velUpdate vmax v a) rest

/-! ## Jump Flooding Algorithm (spec §4.4, README "JFA Step Size") -/

/-- Squared Euclidean distance between two pixel coordinates. -/
def distSq (a b : ℕ × ℕ) : ℤ :=
  ((a.1 : ℤ) - b.1) ^ 2 + ((a.2 : ℤ) - b.2) ^ 2

/-- Modelled from the spec: the initial seed texture on an `R×R` grid —
pixel `y*R + x` holds the id of the seed placed there (the first seed in the
list wins a shared pixel), otherwise no id yet. -/
def seedInit (R : ℕ) (seeds : List (ℕ × ℕ)) : List (Option ℕ) :=
  (List.range (R * R)).map (fun p =>
    (seeds.enum.find? (fun e => e.2.2 * R + e.2.1 == p)).map Prod.fst)

/-- Keep the better of the current and candidate seed ids for pixel `pos`:
a strictly closer candidate wins, the current id wins ties. -/
def better (seeds : List (ℕ × ℕ)) (pos : ℕ × ℕ) (cur cand : Option ℕ) :
    Option ℕ :=
  match cur, cand with
  | none, c => c
  | some i, none => some i
  | some i, some j =>
    if distSq pos (seeds.getD j (0, 0)) < distSq pos (seeds.getD i (0, 0)) then
      some j
    else some i

/-- The nine candidate offsets (0 or ±1 times the step, per axis) examined
by one jump-flooding pass. -/
def offsets : List (ℤ × ℤ) :=
  [(-1, -1), (0, -1), (1, -1), (-1, 0), (0, 0), (1, 0), (-1, 1), (0, 1), (1, 1)]

/-- Modelled from the spec: one jump-flooding pass with the given step size —
every pixel examines the stored ids at the nine candidate offsets (those in
bounds) and keeps the nearest seed seen, reading only the previous buffer. -/
def jfaPass (R step : ℕ) (seeds : List (ℕ × ℕ)) (buf : List (Option ℕ)) :
    List (Option ℕ) :=
  (List.range (R * R)).map (fun p =>
    let x := p % R
    let y := p / R
    offsets.foldl (fun cur o =>
      let nx := (x : ℤ) + o.1 * step
      let ny := (y : ℤ) + o.2 * step
      if 0 ≤ nx ∧ nx < (R : ℤ) ∧ 0 ≤ ny ∧ ny < (R : ℤ) then
        better seeds (x, y) cur (buf.getD (ny.toNat * R + nx.toNat) none)
      else cur) (buf.getD p none))

/-- Ceiling of the base-2 logarithm: the least `k` with `n ≤ 2 ^ k`
(0 for `n = 0`), computed by bounded search so that it kernel-reduces. -/
def clog2 (n : ℕ) : ℕ :=
  ((List.range (n + 1)).filter (fun k => n ≤ 2 ^ k)).headI

/-- Modelled from the spec: the full jump-flooding pass sequence, passes
`k = 0 .. ceil(log2 R)` with step sizes `2 ^ (ceil(log2 R) - k)`, starting
from the initial seed texture (README "JFA Step Size"). -/
def jfa (R : ℕ) (seeds : List (ℕ × ℕ)) : List (Option ℕ) :=
  let K := clog2 R
  (List.range (K + 1)).foldl (fun buf k => jfaPass R (2 ^ (K - k)) seeds buf)
    (seedInit R seeds)

/-- Brute-force squared distance from pixel `pos` to its nearest seed. -/
def bruteMinDistSq (seeds : List (ℕ × ℕ)) (pos : ℕ × ℕ) : ℤ :=
  match seeds with
  | [] => 0
  | s :: ss => (ss.map (fun t => distSq pos t)).foldl min (distSq pos s)

/-- Does the JFA output assign pixel `p` a seed at the true minimum
distance over all seeds? -/
def nearestOk (R : ℕ) (seeds : List (ℕ × ℕ)) (p : ℕ) : Bool :=
  match (jfa R seeds).getD p none with
  | none => false
  | some i =>
    decide (distSq (p % R, p / R) (seeds.getD i (0, 0)) =
      bruteMinDistSq seeds (p % R, p / R))

/-- The seed list refuting exactness of the jump-flooding output: three
seeds on the 8×8 grid. -/
def cexSeeds : List (ℕ × ℕ) := [(0, 0), (1, 0), (6, 4)]

/-- All nonempty seed lists of distinct positions on the 2×2 grid, in every
order. -/
def allSeedLists2 : List (List (ℕ × ℕ)) :=
  ((([(0, 0), (1, 0), (0, 1), (1, 1)] : List (ℕ × ℕ)).sublists.map
    List.permutations').flatten).filter (fun l => !l.isEmpty)

/-! ## Helper lemmas: first-occurrence replacement -/

theorem replaceFirstAux_no_occ (pat rep : List Char) :
    ∀ l : List Char, (∀ p t : List Char, l ≠ p ++ pat ++ t) →
      replaceFirstAux pat rep l = l := by
  intro l
  induction l with
  | nil => intro _; rfl
  | cons c cs ih =>
    intro h
    have hnp : ¬ pat.isPrefixOf (c :: cs) = true := by
      intro hp
      rcases List.isPrefixOf_iff_prefix.mp hp with ⟨t, ht⟩
      exact h [] t ht.symm
    simp only [replaceFirstAux, if_neg hnp]
    rw [ih]
    intro p t hpt
    exact h (c :: p) t (by simp [hpt])

theorem replaceFirstAux_first_occ (pat rep : List Char) (hpat : pat ≠ []) :
    ∀ p l t : List Char, l = p ++ pat ++ t →
      (∀ p2 t2 : List Char, l = p2 ++ pat ++ t2 → p.length ≤ p2.length) →
      replaceFirstAux pat rep l = p ++ rep ++ t := by
  intro p
  induction p with
  | nil =>
    intro l t hl _
    subst hl
    cases pat with
    | nil => exact absurd rfl hpat
    | cons c cs =>
      simp only [List.nil_append, List.cons_append]
      have hpre : (c :: cs).isPrefixOf (c :: (cs ++ t)) = true :=
        List.isPrefixOf_iff_prefix.mpr ⟨t, by simp⟩
      simp only [replaceFirstAux, if_pos hpre]
      simp [List.drop_left']
  | cons a p2 ih =>
    intro l t hl hmin
    subst hl
    have hnp : ¬ pat.isPrefixOf (a :: (p2 ++ pat ++ t)) = true := by
      intro hp
      rcases List.isPrefixOf_iff_prefix.mp hp with ⟨u, hu⟩
      have := hmin [] u (by simpa using hu.symm)
      simp at this
    simp only [List.cons_append, List.append_assoc] at hnp ⊢
    simp only [replaceFirstAux, if_neg hnp]
    rw [ih (p2 ++ (pat ++ t)) t (by simp)]
    · simp
    · intro p3 t3 h3
      have := hmin (a :: p3) t3 (by simp [h3])
      simpa using this

/-! ## Claim theorems: worker bootstrap -/

/-- Claim C9: the worker imports exactly `./vantamorph.js` when the URL's
`script` query parameter is absent or empty, and otherwise imports exactly
the parameter's value. -/
theorem worker_script_selection (q : Option String) :
    ((q = none ∨ q = some "") → scriptName q = "./vantamorph.js") ∧
    (∀ s : String, q = some s → s ≠ "" → scriptName q = s) := by
  constructor
  · rintro (rfl | rfl) <;> simp [scriptName]
  · rintro s rfl hs
    simp [scriptName, hs]

/-- Witness for the worker script-selection claim, at an absent parameter
and at the concrete value `./custom.js`. -/
theorem worker_script_selection_witness :
    scriptName none = "./vantamorph.js" ∧ scriptName (some "./custom.js") = "./custom.js" :=
  ⟨(worker_script_selection none).1 (Or.inl rfl),
   (worker_script_selection (some "./custom.js")).2 "./custom.js" rfl (by decide)⟩

/-- Claim C10: the wasm path handed to the app module's initializer is the
script name with its first occurrence of `.js` replaced by `_bg.wasm`
(so `./vantamorph.js` yields `./vantamorph_bg.wasm`), and a script name
without `.js` is passed through unchanged. -/
theorem worker_wasm_path (s : String) :
    (∀ p t : List Char, s.data = p ++ ".js".data ++ t →
      (∀ p2 t2 : List Char, s.data = p2 ++ ".js".data ++ t2 → p.length ≤ p2.length) →
      (wasmName s).data = p ++ "_bg.wasm".data ++ t) ∧
    ((∀ p t : List Char, s.data ≠ p ++ ".js".data ++ t) → wasmName s = s) ∧
    wasmName "./vantamorph.js" = "./vantamorph_bg.wasm" := by
  refine ⟨?_, ?_, by decide⟩
  · intro p t hl hmin
    simpa [wasmName, jsReplace] using
      replaceFirstAux_first_occ ".js".data "_bg.wasm".data (by decide) p s.data t hl hmin
  · intro h
    have : (wasmName s).data = s.data := by
      simpa [wasmName, jsReplace] using replaceFirstAux_no_occ ".js".data "_bg.wasm".data s.data h
    exact String.ext this

/-- Witness for the wasm-path claim: on `".js"` the first occurrence starts
at position 0, and in `"zzz"` there is no occurrence at all. -/
theorem worker_wasm_path_witness :
    (wasmName ".js").data = [] ++ "_bg.wasm".data ++ [] ∧ wasmName "zzz" = "zzz" :=
  ⟨(worker_wasm_path ".js").1 [] [] (by decide) (fun p2 t2 _ => Nat.zero_le _),
   (worker_wasm_path "zzz").2.1 (fun p t h => by
      have h0 := congrArg List.length h
      rw [List.length_append, List.length_append] at h0
      have e1 : ("zzz".data).length = 3 := by decide
      have e2 : ((".js".data : List Char)).length = 3 := by decide
      rw [e1, e2] at h0
      have hp : p = [] := List.length_eq_zero.mp (by omega)
      have ht : t = [] := List.length_eq_zero.mp (by omega)
      subst hp
      subst ht
      simp only [List.nil_append, List.append_nil] at h
      exact absurd h (by decide))⟩

/-- Claim C8: the worker bootstrap swallows no error — if the dynamic
module load or the wasm initialization fails, the error is logged via
`console.error` and then rethrown, so the same error propagates out of the
worker. -/
theorem worker_error_propagation (q : Option String)
    (importFn initFn : String → Except String Unit) :
    (∀ e : String, importFn (scriptName q) = .error e →
      workerBoot q importFn initFn =
        (.error e, ["worker failed to initialize: " ++ e])) ∧
    (∀ e : String, importFn (scriptName q) = .ok () →
      initFn (wasmName (scriptName q)) = .error e →
      workerBoot q importFn initFn =
        (.error e, ["worker failed to initialize: " ++ e])) := by
  constructor
  · intro e he
    simp [workerBoot, he]
  · intro e hok he
    simp [workerBoot, hok, he]

/-- Witness for the worker error-propagation claim: a failing import and a
failing wasm initialization each surface their error and its log entry. -/
theorem worker_error_propagation_witness :
    workerBoot none (fun _ => .error "no module") (fun _ => .ok ()) =
      (.error "no module", ["worker failed to initialize: " ++ "no module"]) ∧
    workerBoot none (fun _ => .ok ()) (fun _ => .error "bad wasm") =
      (.error "bad wasm", ["worker failed to initialize: " ++ "bad wasm"]) :=
  ⟨(worker_error_propagation none (fun _ => .error "no module") (fun _ => .ok ())).1
      "no module" rfl,
   (worker_error_propagation none (fun _ => .ok ()) (fun _ => .error "bad wasm")).2
      "bad wasm" rfl rfl⟩

/-! ## Helper lemmas: the minimum-selecting fold -/

theorem selectMin_cons (f : List ℕ → ℚ) (d c : List ℕ) (t : List (List ℕ)) :
    selectMin f d (c :: t) = selectMin f (if f c < f d then c else d) t := rfl

theorem selectMin_eq_or_mem (f : List ℕ → ℚ) (d : List ℕ) (l : List (List ℕ)) :
    selectMin f d l = d ∨ selectMin f d l ∈ l := by
  induction l generalizing d with
  | nil => exact Or.inl rfl
  | cons c t ih =>
    rw [selectMin_cons]
    rcases ih (if f c < f d then c else d) with h | h
    · by_cases hc : f c < f d
      · right
        rw [h, if_pos hc]
        exact List.mem_cons_self _ _
      · left
        rw [h, if_neg hc]
    · right
      exact List.mem_cons_of_mem _ h

theorem selectMin_le_init (f : List ℕ → ℚ) (d : List ℕ) (l : List (List ℕ)) :
    f (selectMin f d l) ≤ f d := by
  induction l generalizing d with
  | nil => exact le_refl _
  | cons c t ih =>
    rw [selectMin_cons]
    refine le_trans (ih _) ?_
    by_cases hc : f c < f d
    · rw [if_pos hc]
      exact le_of_lt hc
    · rw [if_neg hc]

theorem selectMin_le_mem (f : List ℕ → ℚ) (d : List ℕ) (l : List (List ℕ)) :
    ∀ x ∈ l, f (selectMin f d l) ≤ f x := by
  induction l generalizing d with
  | nil => intro x hx; cases hx
  | cons c t ih =>
    intro x hx
    rw [selectMin_cons]
    rcases List.mem_cons.mp hx with rfl | hx
    · refine le_trans (selectMin_le_init f _ t) ?_
      by_cases hc : f x < f d
      · rw [if_pos hc]
      · rw [if_neg hc]
        exact le_of_not_lt hc
    · exact ih _ x hx

/-! ## Helper lemmas: cost-matrix entries -/

theorem dColorSq_nonneg (a b : Cell) : 0 ≤ dColorSq a b := by
  unfold dColorSq
  positivity

theorem dSpatialSq_nonneg (a b : Cell) : 0 ≤ dSpatialSq a b := by
  unfold dSpatialSq
  positivity

theorem cost_nonneg (p : ℚ) (h0 : 0 ≤ p) (h1 : p ≤ 1) (a b : Cell) :
    0 ≤ cost p a b := by
  unfold cost wColor wSpatial
  have h2 : (0 : ℚ) ≤ 1 - p := by linarith
  exact add_nonneg (mul_nonneg h2 (dColorSq_nonneg a b))
    (mul_nonneg h0 (dSpatialSq_nonneg a b))

theorem cost_self (p : ℚ) (a : Cell) : cost p a a = 0 := by
  unfold cost wColor wSpatial dColorSq dSpatialSq
  ring

theorem entry_costMatrix (src tgt : List Cell) (p : ℚ) (i j : ℕ)
    (hi : i < src.length) (hj : j < tgt.length) :
    entry (costMatrix src tgt p) i j =
      cost p (src.getD i default) (tgt.getD j default) := by
  unfold entry costMatrix
  simp [List.getD_eq_getElem?_getD, List.getElem?_map, List.getElem?_eq_getElem, hi, hj]

theorem entry_costMatrix_nonneg (src tgt : List Cell) (p : ℚ)
    (h0 : 0 ≤ p) (h1 : p ≤ 1) (i j : ℕ) :
    0 ≤ entry (costMatrix src tgt p) i j := by
  rcases Nat.lt_or_ge i src.length with hi | hi
  · rcases Nat.lt_or_ge j tgt.length with hj | hj
    · rw [entry_costMatrix src tgt p i j hi hj]
      exact cost_nonneg p h0 h1 _ _
    · unfold entry costMatrix
      simp [List.getD_eq_getElem?_getD, List.getElem?_map, List.getElem?_eq_getElem, hi,
        List.getElem?_eq_none (by simpa using hj)]
  · unfold entry costMatrix
    simp [List.getD_eq_getElem?_getD,
      List.getElem?_eq_none (by simpa using hi)]

theorem totalCost_nonneg (c : List (List ℚ)) (h : ∀ i j, 0 ≤ entry c i j)
    (pi : List ℕ) : 0 ≤ totalCost c pi := by
  unfold totalCost
  apply List.sum_nonneg
  intro x hx
  rcases List.mem_map.mp hx with ⟨i, _, rfl⟩
  exact h i _

theorem totalCost_range_self (g : List Cell) (p : ℚ) :
    totalCost (costMatrix g g p) (List.range g.length) = 0 := by
  unfold totalCost
  rw [List.length_range]
  apply List.sum_eq_zero
  intro x hx
  rcases List.mem_map.mp hx with ⟨i, hi, rfl⟩
  have hi2 : i < g.length := List.mem_range.mp hi
  rw [List.getD_eq_getElem?_getD, List.getElem?_range hi2, Option.getD_some,
    entry_costMatrix g g p i i hi2 hi2]
  exact cost_self p _

/-! ## Helper lemmas: the exact solver -/

theorem exactSolve_perm (c : List (List ℚ)) (n : ℕ) :
    exactSolve c n ~ List.range n := by
  unfold exactSolve
  rcases selectMin_eq_or_mem (totalCost c) (List.range n)
    (List.range n).permutations' with h | h
  · rw [h]
  · exact List.mem_permutations'.mp h

theorem exactSolve_le (c : List (List ℚ)) (n : ℕ) (pi : List ℕ)
    (h : pi ~ List.range n) :
    totalCost c (exactSolve c n) ≤ totalCost c pi := by
  unfold exactSolve
  exact selectMin_le_mem _ _ _ pi (List.mem_permutations'.mpr h)

/-! ## Claim theorems: cost matrix and exact solver -/

/-- Claim C4: for equal-count cell grids and `proximity_importance` in
`[0,1]`, every cost-matrix entry equals
`w_color * d_color² + w_spatial * d_spatial²` with `d_color` the Euclidean
RGB distance and `d_spatial` the Euclidean centroid distance, and every
entry is non-negative. -/
theorem cost_matrix_entries (src tgt : List Cell) (p : ℚ)
    (h0 : 0 ≤ p) (h1 : p ≤ 1) (hlen : src.length = tgt.length) (i j : ℕ)
    (hi : i < src.length) (hj : j < tgt.length) :
    entry (costMatrix src tgt p) i j =
      wColor p * dColorSq (src.getD i default) (tgt.getD j default) +
      wSpatial p * dSpatialSq (src.getD i default) (tgt.getD j default) ∧
    0 ≤ entry (costMatrix src tgt p) i j :=
  ⟨entry_costMatrix src tgt p i j hi hj,
   entry_costMatrix_nonneg src tgt p h0 h1 i j⟩

/-- Witness for the cost-matrix claim at a one-cell grid pair with
`proximity_importance` 1. -/
theorem cost_matrix_entries_witness :
    entry (costMatrix [⟨0, 0, 0, 0, 0⟩] [⟨0, 0, 0, 0, 0⟩] 1) 0 0 =
      wColor 1 * dColorSq (([⟨0, 0, 0, 0, 0⟩] : List Cell).getD 0 default)
        (([⟨0, 0, 0, 0, 0⟩] : List Cell).getD 0 default) +
      wSpatial 1 * dSpatialSq (([⟨0, 0, 0, 0, 0⟩] : List Cell).getD 0 default)
        (([⟨0, 0, 0, 0, 0⟩] : List Cell).getD 0 default) ∧
    0 ≤ entry (costMatrix [⟨0, 0, 0, 0, 0⟩] [⟨0, 0, 0, 0, 0⟩] 1) 0 0 :=
  cost_matrix_entries [⟨0, 0, 0, 0, 0⟩] [⟨0, 0, 0, 0, 0⟩] 1 zero_le_one
    (le_refl 1) rfl 0 0 (by decide) (by decide)

/-- Claim C2: for an N×N cost matrix with N ≤ 8, Exact mode's total cost is
the least total cost over all permutations of `0..N-1` — it matches the
brute-force minimum-cost assignment. -/
theorem exact_mode_bruteforce_min (c : List (List ℚ)) (n : ℕ)
    (hn : n ≤ 8) (hrows : c.length = n) (hcols : ∀ r ∈ c, r.length = n) :
    IsLeast {q : ℚ | ∃ pi : List ℕ, pi ~ List.range n ∧ totalCost c pi = q}
      (totalCost c (exactSolve c n)) := by
  constructor
  · exact ⟨exactSolve c n, exactSolve_perm c n, rfl⟩
  · rintro q ⟨pi, hperm, rfl⟩
    exact exactSolve_le c n pi hperm

/-- Witness for the exact-mode brute-force-minimum claim at the 2×2 cost
matrix `[[0,1],[1,0]]`. -/
theorem exact_mode_bruteforce_min_witness :
    IsLeast {q : ℚ | ∃ pi : List ℕ, pi ~ List.range 2 ∧
        totalCost [[0, 1], [1, 0]] pi = q}
      (totalCost [[0, 1], [1, 0]] (exactSolve [[0, 1], [1, 0]] 2)) :=
  exact_mode_bruteforce_min [[0, 1], [1, 0]] 2 (by decide) rfl (by decide)

/-- Claim C7: when source and target grids are identical, Exact mode's
assignment has total cost 0; and on the concrete identical 2×2 grid pair
(R = 2) it returns the identity permutation `[0,1,2,3]` with total cost 0. -/
theorem identical_grids_zero_cost :
    (∀ (g : List Cell) (p : ℚ), 0 ≤ p → p ≤ 1 →
      totalCost (costMatrix g g p) (exactSolve (costMatrix g g p) g.length) = 0) ∧
    exactSolve (costMatrix grid2 grid2 (1 / 2)) 4 = [0, 1, 2, 3] ∧
    totalCost (costMatrix grid2 grid2 (1 / 2)) [0, 1, 2, 3] = 0 := by
  refine ⟨?_, ?_, ?_⟩
  · intro g p h0 h1
    have hle : totalCost (costMatrix g g p) (exactSolve (costMatrix g g p) g.length) ≤ 0 := by
      have h := exactSolve_le (costMatrix g g p) g.length (List.range g.length)
        (List.Perm.refl _)
      rw [totalCost_range_self g p] at h
      exact h
    have hge : 0 ≤ totalCost (costMatrix g g p) (exactSolve (costMatrix g g p) g.length) :=
      totalCost_nonneg _ (fun i j => entry_costMatrix_nonneg g g p h0 h1 i j) _
    linarith
  · set_option maxRecDepth 10000 in with_unfolding_all rfl
  · set_option maxRecDepth 10000 in with_unfolding_all rfl

/-- Witness for the identical-grids claim at the concrete 2×2 grid with
`proximity_importance` 1. -/
theorem identical_grids_zero_cost_witness :
    totalCost (costMatrix grid2 grid2 1)
      (exactSolve (costMatrix grid2 grid2 1) grid2.length) = 0 :=
  identical_grids_zero_cost.1 grid2 1 zero_le_one (le_refl 1)

/-! ## Helper lemmas: genetic operators preserve permutations -/

theorem count_set_eq (x b : ℕ) :
    ∀ (l : List ℕ) (i : ℕ), i < l.length →
      (l.set i b).count x + (if l.getD i 0 == x then 1 else 0) =
      l.count x + (if b == x then 1 else 0) := by
  intro l
  induction l with
  | nil => intro i hi; exact absurd hi (Nat.not_lt_zero i)
  | cons a t ih =>
    intro i hi
    cases i with
    | zero =>
      simp only [List.set_cons_zero, List.getD_cons_zero]
      rw [List.count_cons, List.count_cons]
      omega
    | succ i2 =>
      simp only [List.set_cons_succ, List.getD_cons_succ]
      rw [List.count_cons, List.count_cons]
      have := ih i2 (Nat.succ_lt_succ_iff.mp (by simpa using hi))
      omega

theorem swapIdx_perm (l : List ℕ) (i j : ℕ) : swapIdx l i j ~ l := by
  unfold swapIdx
  split
  · rename_i h
    obtain ⟨hi, hj⟩ := h
    rw [List.perm_iff_count]
    intro x
    have hj2 : j < (l.set i (l.getD j 0)).length := by simpa using hj
    have e1 := count_set_eq x (l.getD i 0) (l.set i (l.getD j 0)) j hj2
    have e2 := count_set_eq x (l.getD j 0) l i hi
    have e3 : (l.set i (l.getD j 0)).getD j 0 = l.getD j 0 := by
      by_cases hij : i = j
      · subst hij
        rw [List.getD_eq_getElem?_getD, List.getElem?_set_self hi, Option.getD_some]
      · rw [List.getD_eq_getElem?_getD, List.getElem?_set_ne hij,
          ← List.getD_eq_getElem?_getD]
    rw [e3] at e1
    omega
  · exact List.Perm.refl l

theorem mutate_perm (s rate : ℕ) (l : List ℕ) : (mutate s rate l).2 ~ l := by
  simp only [mutate]
  split
  · exact swapIdx_perm l _ _
  · exact List.Perm.refl l

theorem crossover_perm (r p1 p2 : List ℕ) (cut : ℕ)
    (h1 : p1 ~ r) (h2 : p2 ~ r) (hnd : r.Nodup) :
    crossover p1 p2 cut ~ r := by
  unfold crossover
  have hnd1 : p1.Nodup := h1.nodup_iff.mpr hnd
  have hsplit : p1.take cut ++ p1.drop cut = p1 := List.take_append_drop cut p1
  have hp : p2.filter (fun x => decide (x ∉ p1.take cut)) ~
      p1.filter (fun x => decide (x ∉ p1.take cut)) :=
    List.Perm.filter _ (h2.trans h1.symm)
  have hdisj : (p1.take cut).Disjoint (p1.drop cut) :=
    List.disjoint_of_nodup_append (hsplit.symm ▸ hnd1)
  have ht : (p1.take cut).filter (fun x => decide (x ∉ p1.take cut)) = [] :=
    List.filter_eq_nil_iff.mpr (fun a ha => by simp [ha])
  have hd : (p1.drop cut).filter (fun x => decide (x ∉ p1.take cut)) =
      p1.drop cut :=
    List.filter_eq_self.mpr (fun a ha => by
      simp only [decide_eq_true_eq]
      exact fun hmem => hdisj hmem ha)
  have hfil : p1.filter (fun x => decide (x ∉ p1.take cut)) = p1.drop cut := by
    have hcongr : (p1.take cut ++ p1.drop cut).filter
        (fun x => decide (x ∉ p1.take cut)) =
        p1.filter (fun x => decide (x ∉ p1.take cut)) := by rw [hsplit]
    rw [← hcongr, List.filter_append, ht, hd, List.nil_append]
  calc p1.take cut ++ p2.filter (fun x => decide (x ∉ p1.take cut))
      ~ p1.take cut ++ p1.drop cut := List.Perm.append_left _ (by rw [hfil] at hp; exact hp)
    _ = p1 := hsplit
    _ ~ r := h1

theorem randPerm_perm (n s : ℕ) : randPerm n s ~ List.range n := by
  unfold randPerm
  have hne : (List.range n).permutations' ≠ [] := by
    intro h
    have : List.range n ∈ (List.range n).permutations' :=
      List.mem_permutations'.mpr (List.Perm.refl _)
    rw [h] at this
    cases this
  have hlen : 0 < (List.range n).permutations'.length :=
    List.length_pos.mpr hne
  have hidx : s % (List.range n).permutations'.length <
      (List.range n).permutations'.length := Nat.mod_lt s hlen
  rw [List.getD_eq_getElem?_getD, List.getElem?_eq_getElem hidx, Option.getD_some]
  exact List.mem_permutations'.mp (List.getElem_mem hidx)

theorem initPop_perm (n : ℕ) :
    ∀ (s m : ℕ), ∀ x ∈ initPop n s m, x ~ List.range n := by
  intro s m
  induction m generalizing s with
  | zero => intro x hx; cases hx
  | succ m2 ih =>
    intro x hx
    rcases List.mem_cons.mp hx with rfl | hx
    · exact randPerm_perm n s
    · exact ih (lcg s) x hx

theorem draw_eq_or_mem (pop : List (List ℕ)) (d : List ℕ) (s : ℕ) :
    draw pop d s = d ∨ draw pop d s ∈ pop := by
  unfold draw
  rcases Nat.lt_or_ge (s % pop.length) pop.length with h | h
  · right
    rw [List.getD_eq_getElem?_getD, List.getElem?_eq_getElem h, Option.getD_some]
    exact List.getElem_mem h
  · left
    rw [List.getD_eq_getElem?_getD, List.getElem?_eq_none h, Option.getD_none]

theorem drawMany_eq_or_mem (pop : List (List ℕ)) (d : List ℕ) :
    ∀ (s k : ℕ), ∀ x ∈ (drawMany pop d s k).2, x = d ∨ x ∈ pop := by
  intro s k
  induction k generalizing s with
  | zero => intro x hx; cases hx
  | succ k2 ih =>
    intro x hx
    rcases List.mem_cons.mp hx with rfl | hx
    · exact draw_eq_or_mem pop d s
    · exact ih (lcg s) x hx

theorem tournament_eq_or_mem (f : List ℕ → ℚ) (pop : List (List ℕ))
    (d : List ℕ) (s k : ℕ) :
    (tournament f pop d s k).2 = d ∨ (tournament f pop d s k).2 ∈ pop := by
  unfold tournament
  rcases selectMin_eq_or_mem f d (drawMany pop d s k).2 with h | h
  · exact Or.inl h
  · exact drawMany_eq_or_mem pop d s k _ h

theorem tournament_perm (f : List ℕ → ℚ) (pop : List (List ℕ)) (n : ℕ)
    (hpop : ∀ x ∈ pop, x ~ List.range n) (s k : ℕ) :
    (tournament f pop (List.range n) s k).2 ~ List.range n := by
  rcases tournament_eq_or_mem f pop (List.range n) s k with h | h
  · rw [h]
  · exact hpop _ h

theorem mkChild_perm (f : List ℕ → ℚ) (pop : List (List ℕ)) (n : ℕ)
    (hpop : ∀ x ∈ pop, x ~ List.range n) (tSize mutRate s : ℕ) :
    (mkChild f pop (List.range n) tSize mutRate n s).2 ~ List.range n := by
  simp only [mkChild]
  exact (mutate_perm _ _ _).trans
    (crossover_perm (List.range n) _ _ _
      (tournament_perm f pop n hpop s tSize)
      (tournament_perm f pop n hpop _ tSize)
      (List.nodup_range n))

theorem mkChildren_perm (f : List ℕ → ℚ) (pop : List (List ℕ)) (n : ℕ)
    (hpop : ∀ x ∈ pop, x ~ List.range n) (tSize mutRate : ℕ) :
    ∀ (s m : ℕ), ∀ x ∈ (mkChildren f pop (List.range n) tSize mutRate n s m).2,
      x ~ List.range n := by
  intro s m
  induction m generalizing s with
  | zero => intro x hx; cases hx
  | succ m2 ih =>
    intro x hx
    simp only [mkChildren] at hx
    rcases List.mem_cons.mp hx with rfl | hx
    · exact mkChild_perm f pop n hpop tSize mutRate s
    · exact ih _ x hx

theorem topK_subset (f : List ℕ → ℚ) :
    ∀ (k : ℕ) (l : List (List ℕ)), ∀ y ∈ topK f k l, y ∈ l := by
  intro k
  induction k with
  | zero => intro l y hy; cases hy
  | succ k2 ih =>
    intro l y hy
    cases l with
    | nil => cases hy
    | cons x xs =>
      simp only [topK] at hy
      rcases List.mem_cons.mp hy with rfl | hy
      · rcases selectMin_eq_or_mem f x xs with h | h
        · rw [h]
          exact List.mem_cons_self _ _
        · exact List.mem_cons_of_mem _ h
      · exact List.erase_subset _ _ (ih _ y hy)

theorem gaStep_perm (c : List (List ℚ)) (n : ℕ) (cfg : GAConfig) (s : ℕ)
    (pop : List (List ℕ)) (hpop : ∀ x ∈ pop, x ~ List.range n) :
    ∀ x ∈ (gaStep c n cfg s pop).2, x ~ List.range n := by
  intro x hx
  simp only [gaStep] at hx
  rcases List.mem_append.mp hx with hx | hx
  · exact hpop _ (topK_subset _ _ _ _ hx)
  · exact mkChildren_perm (totalCost c) pop n hpop cfg.tournamentSize
      cfg.mutationRate s (pop.length - cfg.eliteCount) x hx

theorem genAt_perm (c : List (List ℚ)) (n : ℕ) (cfg : GAConfig) (s : ℕ)
    (pop : List (List ℕ)) (hpop : ∀ x ∈ pop, x ~ List.range n) :
    ∀ g, ∀ x ∈ (genAt c n cfg s pop g).2, x ~ List.range n := by
  intro g
  induction g with
  | zero => exact hpop
  | succ g2 ih =>
    intro x hx
    simp only [genAt] at hx
    exact gaStep_perm c n cfg _ _ ih x hx

theorem geneticSolve_perm (c : List (List ℚ)) (n : ℕ) (cfg : GAConfig)
    (seed : ℕ) : geneticSolve c n cfg seed ~ List.range n := by
  simp only [geneticSolve]
  rcases selectMin_eq_or_mem (totalCost c) (List.range n)
    (genAt c n cfg (lcg seed) (initPop n seed cfg.populationSize)
      cfg.generations).2 with h | h
  · rw [h]
  · exact genAt_perm c n cfg (lcg seed) (initPop n seed cfg.populationSize)
      (initPop_perm n seed cfg.populationSize) cfg.generations _ h

/-! ## Helper lemmas: elitism and best fitness -/

theorem topK_cons_champion (f : List ℕ → ℚ) (k : ℕ) (x : List ℕ)
    (xs : List (List ℕ)) :
    topK f (k + 1) (x :: xs) =
      selectMin f x xs :: topK f k ((x :: xs).erase (selectMin f x xs)) := rfl

theorem gaStep_best_le (c : List (List ℚ)) (n : ℕ) (cfg : GAConfig) (s : ℕ)
    (pop : List (List ℕ)) (hk : 1 ≤ cfg.eliteCount) (hpop : pop ≠ []) :
    bestFitness c (gaStep c n cfg s pop).2 ≤ bestFitness c pop := by
  obtain ⟨x, xs, rfl⟩ := List.exists_cons_of_ne_nil hpop
  obtain ⟨k2, hk2⟩ : ∃ k2, cfg.eliteCount = k2 + 1 :=
    ⟨cfg.eliteCount - 1, by omega⟩
  simp only [gaStep, hk2]
  rw [topK_cons_champion, List.cons_append]
  unfold bestFitness
  simp only [List.headI, List.tail_cons]
  exact selectMin_le_init _ _ _

theorem gaStep_ne_nil (c : List (List ℚ)) (n : ℕ) (cfg : GAConfig) (s : ℕ)
    (pop : List (List ℕ)) (hk : 1 ≤ cfg.eliteCount) (hpop : pop ≠ []) :
    (gaStep c n cfg s pop).2 ≠ [] := by
  obtain ⟨x, xs, rfl⟩ := List.exists_cons_of_ne_nil hpop
  obtain ⟨k2, hk2⟩ : ∃ k2, cfg.eliteCount = k2 + 1 :=
    ⟨cfg.eliteCount - 1, by omega⟩
  simp only [gaStep, hk2]
  rw [topK_cons_champion, List.cons_append]
  exact List.cons_ne_nil _ _

theorem genAt_ne_nil (c : List (List ℚ)) (n : ℕ) (cfg : GAConfig) (s : ℕ)
    (pop : List (List ℕ)) (hk : 1 ≤ cfg.eliteCount) (hpop : pop ≠ []) :
    ∀ g, (genAt c n cfg s pop g).2 ≠ [] := by
  intro g
  induction g with
  | zero => exact hpop
  | succ g2 ih =>
    simp only [genAt]
    exact gaStep_ne_nil c n cfg _ _ hk ih

/-! ## Claim theorems: solver invariants -/

/-- Claim C1: for every cost matrix and size, both Exact and Genetic mode
outputs are permutations of `0..n-1` — length `n`, every index in `0..n-1`
appearing exactly once (no repeats, full coverage). -/
theorem solver_output_bijection (c : List (List ℚ)) (n : ℕ) (cfg : GAConfig)
    (seed : ℕ) :
    (exactSolve c n ~ List.range n ∧ geneticSolve c n cfg seed ~ List.range n) ∧
    (exactSolve c n).length = n ∧ (geneticSolve c n cfg seed).length = n ∧
    (∀ k, k < n →
      (exactSolve c n).count k = 1 ∧ (geneticSolve c n cfg seed).count k = 1) := by
  have he := exactSolve_perm c n
  have hg := geneticSolve_perm c n cfg seed
  refine ⟨⟨he, hg⟩, by simpa using he.length_eq, by simpa using hg.length_eq, ?_⟩
  intro k hk
  have hcount : (List.range n).count k = 1 :=
    List.count_eq_one_of_mem (List.nodup_range n) (List.mem_range.mpr hk)
  exact ⟨(he.count_eq k).trans hcount, (hg.count_eq k).trans hcount⟩

/-- Witness for the bijection claim at size 2 with a singleton-generation
genetic configuration. -/
theorem solver_output_bijection_witness :
    (0 : ℕ) < 2 ∧
    (exactSolve [[0, 1], [1, 0]] 2).count 0 = 1 ∧
    (geneticSolve [[0, 1], [1, 0]] 2 ⟨2, 1, 1, 1, 10⟩ 7).count 0 = 1 :=
  ⟨by decide,
   (solver_output_bijection [[0, 1], [1, 0]] 2 ⟨2, 1, 1, 1, 10⟩ 7).2.2.2 0
     (by decide)⟩

/-- Claim C3: in Genetic mode the best total-cost fitness of generation
`g + 1` is at most that of generation `g` — best-of-generation fitness is
non-increasing across the whole run, by elitism (at least one top
individual carried unchanged). -/
theorem ga_best_fitness_monotone (c : List (List ℚ)) (n : ℕ) (cfg : GAConfig)
    (s : ℕ) (pop : List (List ℕ)) (hk : 1 ≤ cfg.eliteCount) (hpop : pop ≠ [])
    (g : ℕ) :
    bestFitness c (genAt c n cfg s pop (g + 1)).2 ≤
      bestFitness c (genAt c n cfg s pop g).2 := by
  have hne := genAt_ne_nil c n cfg s pop hk hpop g
  simp only [genAt]
  exact gaStep_best_le c n cfg _ _ hk hne

/-- Witness for the elitism-monotonicity claim on a one-individual
population over one generation. -/
theorem ga_best_fitness_monotone_witness :
    bestFitness [[0]] (genAt [[0]] 1 ⟨1, 1, 1, 1, 0⟩ 0 [[0]] 1).2 ≤
      bestFitness [[0]] (genAt [[0]] 1 ⟨1, 1, 1, 1, 0⟩ 0 [[0]] 0).2 :=
  ga_best_fitness_monotone [[0]] 1 ⟨1, 1, 1, 1, 0⟩ 0 [[0]] (le_refl 1)
    (List.cons_ne_nil _ _) 0

/-! ## Helper lemmas: velocity clamping -/

theorem abs_clampQ_le (vmax z : ℚ) (h : 0 ≤ vmax) :
    |clampQ (-vmax) vmax z| ≤ vmax := by
  unfold clampQ
  rw [abs_le]
  constructor
  · exact le_max_left _ _
  · exact max_le (by linarith) (min_le_left _ _)

theorem velUpdate_bounded (vmax : ℚ) (h : 0 ≤ vmax) (v a : Vec2) :
    |(velUpdate vmax v a).x| ≤ vmax ∧ |(velUpdate vmax v a).y| ≤ vmax :=
  ⟨abs_clampQ_le vmax _ h, abs_clampQ_le vmax _ h⟩

/-! ## Claim theorem: velocity clamp invariant -/

/-- Claim C5: after any frame's velocity update
`v' = 0.97 * v + (F_dst + F_neighbor)` followed by clamping to
`[-v_max, v_max]`, the velocity magnitude (componentwise, as the spec's
"clamp each component" defines it) never exceeds `v_max` — for every
particle state, every net force, and any nonempty sequence of frames. -/
theorem velocity_clamp_invariant (vmax : ℚ) (h : 0 ≤ vmax) (v : Vec2)
    (frames : List Vec2) (hf : frames ≠ []) :
    |(runFrames vmax v frames).x| ≤ vmax ∧
    |(runFrames vmax v frames).y| ≤ vmax := by
  induction frames generalizing v with
  | nil => exact absurd rfl hf
  | cons a rest ih =>
    cases rest with
    | nil => exact velUpdate_bounded vmax h v a
    | cons b rest2 => exact ih (velUpdate vmax v a) (List.cons_ne_nil _ _)

/-- Witness for the velocity-clamp claim: one frame with a large force from
a fast initial velocity, with `v_max = 1`. -/
theorem velocity_clamp_invariant_witness :
    |(runFrames 1 ⟨100, -100⟩ [⟨500, -500⟩]).x| ≤ 1 ∧
    |(runFrames 1 ⟨100, -100⟩ [⟨500, -500⟩]).y| ≤ 1 :=
  velocity_clamp_invariant 1 zero_le_one ⟨100, -100⟩ [⟨500, -500⟩]
    (List.cons_ne_nil _ _)

/-! ## Claim theorems: jump flooding -/

/-- Claim C6 counterexample: on the 8×8 grid (8 = 2³) with the three seeds
(0,0), (1,0), (6,4), the final JFA output assigns pixel 56 — coordinates
(0,7) — seed 0 at squared distance 49, while the nearest seed lies at
squared distance 45; no equal-distance comparison is involved, so no
tie-breaking rule rescues exactness.  Hence the final JFA assignment does
not match brute-force nearest-neighbor search at every pixel even for seed
sets of at most 4 seeds on power-of-two grids. -/
theorem jfa_mismatch_at_8x8 :
    cexSeeds.length ≤ 4 ∧ (8 : ℕ) = 2 ^ 3 ∧
    (jfa 8 cexSeeds).getD 56 none = some 0 ∧
    distSq (56 % 8, 56 / 8) (cexSeeds.getD 0 (0, 0)) = 49 ∧
    bruteMinDistSq cexSeeds (56 % 8, 56 / 8) = 45 ∧
    nearestOk 8 cexSeeds 56 = false := by
  decide

/-- Claim C6 (amended): on the 2×2 grid (R = 2), for every nonempty seed
list of distinct in-bounds positions (at most 4 seeds, enumerated as all
permutations of all subsets of the four grid positions), the final JFA
assignment gives every pixel a seed at the true minimum distance; on larger
power-of-two grids exactness can fail, in line with the spec's
"approximate, not exact" caveat. -/
theorem jfa_matches_brute_on_2x2 :
    ∀ seeds ∈ allSeedLists2, ∀ p < 4, nearestOk 2 seeds p = true := by
  decide

/-- Witness for the amended JFA claim at the single seed (1,0) and pixel 3. -/
theorem jfa_matches_brute_on_2x2_witness :
    [((1 : ℕ), (0 : ℕ))] ∈ allSeedLists2 ∧ nearestOk 2 [(1, 0)] 3 = true :=
  ⟨by decide, jfa_matches_brute_on_2x2 [(1, 0)] (by decide) 3 (by decide)⟩

end VantaMorph
